import Mathlib

/-!
Verification of the nessusmerger merge engine.

Shallow embedding of `src/main.go` (package main of lodos2005/nessusmerger).
Pure data (the parsed XML structures) becomes Lean structures; the merge loop
of `mergeNessusFiles` becomes explicit state passing over a `MergeState`;
file parsing, which is I/O in Go, is modelled by giving each file name
together with its parse result (`Except String NessusClientData`), so the
fail-fast control flow of the Go loops is reproduced exactly.

The Go `hostMap` is a `map[string]*ReportHost`; since a Go map holds at most
one entry per key, it is embedded as an association list with no duplicate
names, kept in insertion order.  Go iterates the map in unspecified order
when building `allHosts`; the model fixes insertion order, and the theorems
about the output host list only use order-insensitive facts (per-name lookup,
counts) except where a fixed order is exactly what the model defines.
-/

namespace Nessusmerger

/-- Structure `ReportItem` of src/main.go: one finding.  `content` is the
`,innerxml` opaque blob; the attributes are bookkeeping only. -/
structure ReportItem where
  content : String
  port : String
  svcName : String
  protocol : String
  severity : String
  pluginID : String
  pluginName : String
  pluginFamily : String
deriving DecidableEq, Repr

/-- Structure `HostProperties` of src/main.go: opaque `,innerxml` blob. -/
structure HostProperties where
  content : String
deriving DecidableEq, Repr

/-- Structure `ReportHost` of src/main.go: a host with name attribute,
properties and ordered findings. -/
structure ReportHost where
  name : String
  hostProperties : HostProperties
  reportItems : List ReportItem
deriving DecidableEq, Repr

/-- Structure `Policy` of src/main.go: opaque `,innerxml` blob. -/
structure Policy where
  content : String
deriving DecidableEq, Repr

/-- Structure `Report` of src/main.go. -/
structure Report where
  name : String
  reportHosts : List ReportHost
deriving DecidableEq, Repr

/-- Structure `NessusClientData` of src/main.go: root of a parsed file. -/
structure NessusClientData where
  policy : Policy
  report : Report
deriving DecidableEq, Repr

/-- The local state of `mergeNessusFiles` (src/main.go lines 153-178):
`basePolicy`, the host map (as an insertion-ordered association list), and the
four counters. -/
structure MergeState where
  basePolicy : Policy
  hostMap : List ReportHost
  processedHosts : Nat
  uniqueHosts : Nat
  mergedHosts : Nat
  totalFindings : Nat
deriving DecidableEq, Repr

/-- Initial state of one merge run: `var basePolicy Policy` (zero value, empty
content), empty map, all counters 0 (src/main.go lines 153-154, 175-178). -/
def initState : MergeState :=
  { basePolicy := ⟨""⟩, hostMap := [], processedHosts := 0,
    uniqueHosts := 0, mergedHosts := 0, totalFindings := 0 }

/-- Line 203 of src/main.go,
`existingHost.ReportItems = append(existingHost.ReportItems, host.ReportItems...)`:
append the findings of `host` to the entry of the map with the same name.  On
the association list this updates the first (in fact unique) matching entry
in place. -/
def appendToExisting : List ReportHost → ReportHost → List ReportHost
  | [], _ => []
  | h :: rest, host =>
    if h.name = host.name then
      { h with reportItems := h.reportItems ++ host.reportItems } :: rest
    else
      h :: appendToExisting rest host

/-- One iteration of the inner host loop of `mergeNessusFiles`
(src/main.go lines 192-212): increment `processedHosts`, then either insert a
copy of the host (new name: `uniqueHosts++`) or append its findings to the
existing entry (`mergedHosts++`); in both branches
`totalFindings += len(host.ReportItems)`. -/
def step (st : MergeState) (host : ReportHost) : MergeState :=
  if st.hostMap.any (fun h => h.name = host.name) then
    { st with processedHosts := st.processedHosts + 1,
              hostMap := appendToExisting st.hostMap host,
              mergedHosts := st.mergedHosts + 1,
              totalFindings := st.totalFindings + host.reportItems.length }
  else
    { st with processedHosts := st.processedHosts + 1,
              hostMap := st.hostMap ++ [host],
              uniqueHosts := st.uniqueHosts + 1,
              totalFindings := st.totalFindings + host.reportItems.length }

/-- Process all hosts of one parsed document, in document order
(src/main.go line 192, `for _, host := range data.Report.ReportHosts`). -/
def processDoc (st : MergeState) (data : NessusClientData) : MergeState :=
  data.report.reportHosts.foldl step st

/-- The outer file loop of `mergeNessusFiles` on already-parsed documents
(src/main.go lines 180-213): `i` is the loop index; the first document
(`i == 0`) supplies `basePolicy`. -/
def mergeLoop : MergeState → Nat → List NessusClientData → MergeState
  | st, _, [] => st
  | st, i, d :: ds =>
    mergeLoop
      (processDoc (if i = 0 then { st with basePolicy := d.policy } else st) d)
      (i + 1) ds

/-- Merge a sequence of parsed documents from the initial state. -/
def mergeDocs (docs : List NessusClientData) : MergeState :=
  mergeLoop initState 0 docs

/-! ## The fallible file loops

`parseNessusFile` does I/O; a file is modelled as its name paired with its
parse result.  `fmt.Errorf("error parsing %s: %v", file, err)` becomes string
concatenation. -/

/-- The error wrapping of src/main.go lines 144 and 183. -/
def parseErrorMsg (file : String) (e : String) : String :=
  "error parsing " ++ file ++ ": " ++ e

/-- The loop of `countTotalHosts` (src/main.go lines 139-149): sum host
counts, failing fast on the first parse error with the offending file name. -/
def countTotalHostsLoop (acc : Nat) :
    List (String × Except String NessusClientData) → Except String Nat
  | [] => .ok acc
  | (file, .error e) :: _ => .error (parseErrorMsg file e)
  | (_, .ok d) :: rest => countTotalHostsLoop (acc + d.report.reportHosts.length) rest

/-- Function `countTotalHosts` (src/main.go lines 139-149). -/
def countTotalHosts (files : List (String × Except String NessusClientData)) :
    Except String Nat :=
  countTotalHostsLoop 0 files

/-- The file loop of `mergeNessusFiles` (src/main.go lines 180-213) with the
fail-fast parse step of lines 181-184 made explicit. -/
def mergeFilesLoop (st : MergeState) (i : Nat) :
    List (String × Except String NessusClientData) → Except String MergeState
  | [] => .ok st
  | (file, .error e) :: _ => .error (parseErrorMsg file e)
  | (_, .ok d) :: rest =>
    mergeFilesLoop
      (processDoc (if i = 0 then { st with basePolicy := d.policy } else st) d)
      (i + 1) rest

/-! ## The serializer

The source builds the merged `NessusClientData` (src/main.go lines 225-231),
marshals it with the Go standard library (`xml.MarshalIndent(&mergedData, "",
"  ")`, line 234) and prepends `xml.Header` (line 240).  The standard library
is not part of this repository, so its rendering of these structures is
modelled: two-space indentation per nesting level, attributes escaped, and
every `,innerxml` field emitted verbatim. -/

/-- The Go constant `xml.Header` prepended at src/main.go line 240. -/
def xmlHeader : String :=
  "<?xml version=\"1.0\" encoding=\"UTF-8\"?>\n"

/-- Modelled from the spec: attribute-value escaping performed by the
standard-library serializer (`encoding/xml`), which is not part of src/.
Opaque `,innerxml` content is never passed through this function. -/
def escAttr1 (c : Char) : String :=
  if c = '"' then "&#34;"
  else if c = '&' then "&amp;"
  else if c = '<' then "&lt;"
  else if c = '>' then "&gt;"
  else if c = '\'' then "&#39;"
  else String.singleton c

/-- Escape a whole attribute value. -/
def escAttr (s : String) : String :=
  String.join (s.data.map escAttr1)

/-- Modelled from the spec: the rendering of one `ReportItem` by
`xml.MarshalIndent` (missing from src/, standard library).  The attribute
values are escaped; the `,innerxml` body is re-emitted verbatim, never
re-derived or re-validated. -/
def marshalItem (it : ReportItem) : String :=
  "      <ReportItem port=\"" ++ escAttr it.port ++
  "\" svc_name=\"" ++ escAttr it.svcName ++
  "\" protocol=\"" ++ escAttr it.protocol ++
  "\" severity=\"" ++ escAttr it.severity ++
  "\" pluginID=\"" ++ escAttr it.pluginID ++
  "\" pluginName=\"" ++ escAttr it.pluginName ++
  "\" pluginFamily=\"" ++ escAttr it.pluginFamily ++
  "\">" ++ it.content ++ "</ReportItem>\n"

/-- Modelled from the spec: rendering of the findings of one host, in list
order. -/
def marshalItems : List ReportItem → String
  | [] => ""
  | it :: rest => marshalItem it ++ marshalItems rest

/-- Modelled from the spec: the rendering of one `ReportHost`; the
`HostProperties` `,innerxml` body is re-emitted verbatim. -/
def marshalHost (h : ReportHost) : String :=
  "    <ReportHost name=\"" ++ escAttr h.name ++ "\">\n" ++
  "      <HostProperties>" ++ h.hostProperties.content ++ "</HostProperties>\n" ++
  marshalItems h.reportItems ++
  "    </ReportHost>\n"

/-- Modelled from the spec: rendering of the host list, in list order. -/
def marshalHosts : List ReportHost → String
  | [] => ""
  | h :: rest => marshalHost h ++ marshalHosts rest

/-- Modelled from the spec: the rendering of the whole document by
`xml.MarshalIndent(&mergedData, "", "  ")` (src/main.go line 234); the
`Policy` `,innerxml` body is re-emitted verbatim inside the structural
wrapper. -/
def marshalNessus (d : NessusClientData) : String :=
  "<NessusClientData_v2>\n" ++
  "  <Policy>" ++ d.policy.content ++ "</Policy>\n" ++
  "  <Report name=\"" ++ escAttr d.report.name ++ "\">\n" ++
  marshalHosts d.report.reportHosts ++
  "  </Report>\n" ++
  "</NessusClientData_v2>"

/-- The merged document built at src/main.go lines 225-231: the base policy,
the synthetic report name, and the accumulated hosts.  Go iterates the map in
unspecified order to build `allHosts` (lines 219-222); the model emits the
entries in insertion order, one valid such order. -/
def mergedDocOf (st : MergeState) : NessusClientData :=
  { policy := st.basePolicy,
    report := { name := "Merged Nessus Report", reportHosts := st.hostMap } }

/-- Function `mergeNessusFiles` (src/main.go lines 152-248): run the file
loop, then marshal the merged document prefixed with the XML header (lines
234-240).  Go returns only the bytes and prints the counters to the console
(lines 242-246); the model returns the final state alongside the bytes so
the counters are observable. -/
def mergeNessusFiles (files : List (String × Except String NessusClientData)) :
    Except String (MergeState × String) :=
  (mergeFilesLoop initState 0 files).map
    (fun st => (st, xmlHeader ++ marshalNessus (mergedDocOf st)))

/-! ## Spec-side vocabulary

Definitions used to state the properties: the stream of host occurrences
across all documents, per-name selections, and finding totals. -/

/-- All host occurrences across a document sequence, in processing order. -/
def allHosts (docs : List NessusClientData) : List ReportHost :=
  (docs.map (fun d => d.report.reportHosts)).flatten

/-- The occurrences with a given name, in order. -/
def hostsNamed (hs : List ReportHost) (n : String) : List ReportHost :=
  hs.filter (fun h => h.name = n)

/-- The concatenation of the finding lists of the occurrences named `n`,
in order. -/
def itemsNamed (hs : List ReportHost) (n : String) : List ReportItem :=
  ((hostsNamed hs n).map (fun h => h.reportItems)).flatten

/-- The first occurrence with a given name, if any. -/
def lookupHost (hs : List ReportHost) (n : String) : Option ReportHost :=
  hs.find? (fun h => h.name = n)

/-- Total finding count of a host list. -/
def totalItems (hs : List ReportHost) : Nat :=
  (hs.map (fun h => h.reportItems.length)).sum

/-- Fold describing the per-name effect of a host stream on one map entry:
the entry absorbs the findings of every occurrence named `n`, and the first
occurrence creates the entry when none exists. -/
def mergeInto (n : String) : Option ReportHost → List ReportHost → Option ReportHost
  | cur, [] => cur
  | cur, h :: rest =>
    if h.name = n then
      match cur with
      | none => mergeInto n (some h) rest
      | some e => mergeInto n (some { e with reportItems := e.reportItems ++ h.reportItems }) rest
    else
      mergeInto n cur rest

/-- The first file whose parse result is an error, with its error, skipping
the files that parse successfully before it. -/
def firstParseFailure :
    List (String × Except String NessusClientData) → Option (String × String)
  | [] => none
  | (file, .error e) :: _ => some (file, e)
  | (_, .ok _) :: rest => firstParseFailure rest

/-- Substring relation used to state verbatim re-emission: `s` occurs
contiguously inside `t`. -/
def Substr (s t : String) : Prop :=
  ∃ p q, t = p ++ s ++ q

/-- Number of distinct host names occurring more than once in a host stream
(spec reading of the merged-hosts counter). -/
def repeatedNameCount (hs : List ReportHost) : Nat :=
  ((hs.map ReportHost.name).dedup.filter
    (fun n => 1 < (hs.map ReportHost.name).count n)).length

/-! ## Concrete example data

Inputs used by the witnesses and counterexamples; `docA`/`docB` reproduce the
worked example of the spec (two files, `10.0.0.1` with 3 then 2 findings,
`10.0.0.2` with 1 finding). -/

/-- Example finding with a given body; attributes empty. -/
def exItem (s : String) : ReportItem :=
  ⟨s, "", "", "", "", "", "", ""⟩

/-- Example host with a given name, canned properties and finding bodies. -/
def exHost (n : String) (its : List String) : ReportHost :=
  ⟨n, ⟨"props-" ++ n⟩, its.map exItem⟩

/-- Spec example, file A. -/
def docA : NessusClientData :=
  ⟨⟨"polA"⟩, ⟨"A", [exHost "10.0.0.1" ["a1", "a2", "a3"], exHost "10.0.0.2" ["b1"]]⟩⟩

/-- Spec example, file B. -/
def docB : NessusClientData :=
  ⟨⟨"polB"⟩, ⟨"B", [exHost "10.0.0.1" ["c1", "c2"]]⟩⟩

/-- One document holding the same host name twice. -/
def dupDoc : NessusClientData :=
  ⟨⟨"polD"⟩, ⟨"D", [exHost "a" ["d1"], exHost "a" ["d2"]]⟩⟩

/-- One document holding the same host name three times. -/
def tripleDoc : NessusClientData :=
  ⟨⟨"polT"⟩, ⟨"T", [exHost "a" [], exHost "a" [], exHost "a" []]⟩⟩

/-! ## Basic lemmas about one merge step -/

theorem appendToExisting_map_name (hm : List ReportHost) (host : ReportHost) :
    (appendToExisting hm host).map ReportHost.name = hm.map ReportHost.name := by
  induction hm with
  | nil => rfl
  | cons h rest ih =>
    by_cases hc : h.name = host.name
    · simp [appendToExisting, hc]
    · simp [appendToExisting, hc, ih]

theorem appendToExisting_length (hm : List ReportHost) (host : ReportHost) :
    (appendToExisting hm host).length = hm.length := by
  have h := congrArg List.length (appendToExisting_map_name hm host)
  simpa using h

theorem step_basePolicy (st : MergeState) (h : ReportHost) :
    (step st h).basePolicy = st.basePolicy := by
  unfold step; split <;> rfl

theorem step_processedHosts (st : MergeState) (h : ReportHost) :
    (step st h).processedHosts = st.processedHosts + 1 := by
  unfold step; split <;> rfl

theorem step_totalFindings (st : MergeState) (h : ReportHost) :
    (step st h).totalFindings = st.totalFindings + h.reportItems.length := by
  unfold step; split <;> rfl

theorem step_unique_add_merged (st : MergeState) (h : ReportHost) :
    (step st h).uniqueHosts + (step st h).mergedHosts
      = st.uniqueHosts + st.mergedHosts + 1 := by
  unfold step; split <;> dsimp only <;> omega

theorem step_hostMap_pos (st : MergeState) (h : ReportHost)
    (hc : st.hostMap.any (fun x => x.name = h.name) = true) :
    (step st h).hostMap = appendToExisting st.hostMap h := by
  unfold step; rw [if_pos hc]

theorem step_hostMap_neg (st : MergeState) (h : ReportHost)
    (hc : ¬ st.hostMap.any (fun x => x.name = h.name) = true) :
    (step st h).hostMap = st.hostMap ++ [h] := by
  unfold step; rw [if_neg hc]

theorem step_unique_shift (st : MergeState) (h : ReportHost) :
    (step st h).uniqueHosts + st.hostMap.length
      = st.uniqueHosts + (step st h).hostMap.length := by
  unfold step; split <;> dsimp only
  · rw [appendToExisting_length]
  · simp; omega

/-! ## Lookup through one step -/

theorem lookupHost_cons_pos {h : ReportHost} {n : String} (hs : List ReportHost)
    (hp : h.name = n) : lookupHost (h :: hs) n = some h := by
  simp [lookupHost, List.find?_cons_of_pos, hp]

theorem lookupHost_cons_neg {h : ReportHost} {n : String} (hs : List ReportHost)
    (hp : ¬ h.name = n) : lookupHost (h :: hs) n = lookupHost hs n := by
  simp only [lookupHost]
  rw [List.find?_cons_of_neg]
  simpa using hp

theorem lookupHost_appendToExisting_self (hm : List ReportHost) (host : ReportHost) :
    lookupHost (appendToExisting hm host) host.name
      = (lookupHost hm host.name).map
          (fun e => { e with reportItems := e.reportItems ++ host.reportItems }) := by
  induction hm with
  | nil => rfl
  | cons h rest ih =>
    by_cases hc : h.name = host.name
    · rw [show appendToExisting (h :: rest) host
          = { h with reportItems := h.reportItems ++ host.reportItems } :: rest by
            simp [appendToExisting, hc]]
      rw [lookupHost_cons_pos rest (by simpa using hc), lookupHost_cons_pos rest hc]
      rfl
    · rw [show appendToExisting (h :: rest) host = h :: appendToExisting rest host by
            simp [appendToExisting, hc]]
      rw [lookupHost_cons_neg _ hc, lookupHost_cons_neg _ hc, ih]

theorem lookupHost_appendToExisting_ne (hm : List ReportHost) (host : ReportHost)
    (n : String) (hne : ¬ n = host.name) :
    lookupHost (appendToExisting hm host) n = lookupHost hm n := by
  induction hm with
  | nil => rfl
  | cons h rest ih =>
    by_cases hc : h.name = host.name
    · have hn : ¬ h.name = n := by
        rw [hc]; exact fun hh => hne hh.symm
      rw [show appendToExisting (h :: rest) host
          = { h with reportItems := h.reportItems ++ host.reportItems } :: rest by
            simp [appendToExisting, hc]]
      rw [lookupHost_cons_neg rest (by simpa using hn), lookupHost_cons_neg rest hn]
    · rw [show appendToExisting (h :: rest) host = h :: appendToExisting rest host by
            simp [appendToExisting, hc]]
      by_cases hn : h.name = n
      · rw [lookupHost_cons_pos _ hn, lookupHost_cons_pos _ hn]
      · rw [lookupHost_cons_neg _ hn, lookupHost_cons_neg _ hn, ih]

theorem lookupHost_step (st : MergeState) (h : ReportHost) (n : String) :
    lookupHost (step st h).hostMap n =
      if h.name = n then
        match lookupHost st.hostMap n with
        | none => some h
        | some e => some { e with reportItems := e.reportItems ++ h.reportItems }
      else lookupHost st.hostMap n := by
  by_cases hc : st.hostMap.any (fun x => x.name = h.name) = true
  · rw [step_hostMap_pos st h hc]
    by_cases hn : h.name = n
    · subst hn
      rw [lookupHost_appendToExisting_self, if_pos rfl]
      cases hL : lookupHost st.hostMap h.name with
      | none =>
        exfalso
        obtain ⟨e, he, hpe⟩ := List.any_eq_true.mp hc
        have hnone := List.find?_eq_none.mp hL e he
        exact hnone hpe
      | some e => rfl
    · rw [lookupHost_appendToExisting_ne _ _ _ (fun hh => hn hh.symm), if_neg hn]
  · rw [step_hostMap_neg st h hc]
    have hfa : ∀ x ∈ st.hostMap, ¬ x.name = h.name := by
      intro x hx hxe
      exact hc (List.any_eq_true.mpr ⟨x, hx, by simpa using hxe⟩)
    by_cases hn : h.name = n
    · subst hn
      rw [if_pos rfl]
      have hnone : lookupHost st.hostMap h.name = none :=
        List.find?_eq_none.mpr (by simpa using hfa)
      rw [hnone]
      simp only [lookupHost, List.find?_append]
      rw [show List.find? (fun x => decide (x.name = h.name)) st.hostMap = none from hnone]
      simp
    · rw [if_neg hn]
      simp only [lookupHost, List.find?_append]
      have : List.find? (fun x => decide (x.name = n)) [h] = none := by
        simp [List.find?, hn]
      rw [this]
      simp

theorem lookupHost_foldl_step (hs : List ReportHost) (st : MergeState) (n : String) :
    lookupHost ((hs.foldl step st).hostMap) n
      = mergeInto n (lookupHost st.hostMap n) hs := by
  induction hs generalizing st with
  | nil => rfl
  | cons h rest ih =>
    rw [List.foldl_cons, ih, lookupHost_step]
    by_cases hn : h.name = n
    · rw [if_pos hn]
      cases hL : lookupHost st.hostMap n with
      | none => simp [mergeInto, hn, hL]
      | some e => simp [mergeInto, hn, hL]
    · rw [if_neg hn]
      simp [mergeInto, hn]

/-! ## Per-name selections and the accumulated-entry fold -/

theorem hostsNamed_cons_pos {h : ReportHost} {n : String} (hs : List ReportHost)
    (hp : h.name = n) : hostsNamed (h :: hs) n = h :: hostsNamed hs n := by
  simp [hostsNamed, List.filter_cons, hp]

theorem hostsNamed_cons_neg {h : ReportHost} {n : String} (hs : List ReportHost)
    (hp : ¬ h.name = n) : hostsNamed (h :: hs) n = hostsNamed hs n := by
  simp [hostsNamed, List.filter_cons, hp]

theorem itemsNamed_cons_pos {h : ReportHost} {n : String} (hs : List ReportHost)
    (hp : h.name = n) : itemsNamed (h :: hs) n = h.reportItems ++ itemsNamed hs n := by
  simp [itemsNamed, hostsNamed_cons_pos hs hp]

theorem itemsNamed_cons_neg {h : ReportHost} {n : String} (hs : List ReportHost)
    (hp : ¬ h.name = n) : itemsNamed (h :: hs) n = itemsNamed hs n := by
  simp [itemsNamed, hostsNamed_cons_neg hs hp]

theorem mergeInto_some (n : String) (e : ReportHost) (hs : List ReportHost) :
    mergeInto n (some e) hs
      = some { e with reportItems := e.reportItems ++ itemsNamed hs n } := by
  induction hs generalizing e with
  | nil =>
    cases e with
    | mk a b c => simp [mergeInto, itemsNamed, hostsNamed]
  | cons h rest ih =>
    by_cases hp : h.name = n
    · rw [show mergeInto n (some e) (h :: rest)
          = mergeInto n (some { e with reportItems := e.reportItems ++ h.reportItems }) rest by
            simp [mergeInto, hp]]
      rw [ih, itemsNamed_cons_pos rest hp]
      simp
    · rw [show mergeInto n (some e) (h :: rest) = mergeInto n (some e) rest by
            simp [mergeInto, hp]]
      rw [ih, itemsNamed_cons_neg rest hp]

theorem mergeInto_none (n : String) (hs : List ReportHost) :
    mergeInto n none hs
      = (lookupHost hs n).map (fun h0 => { h0 with reportItems := itemsNamed hs n }) := by
  induction hs with
  | nil => rfl
  | cons h rest ih =>
    by_cases hp : h.name = n
    · rw [show mergeInto n none (h :: rest) = mergeInto n (some h) rest by
            simp [mergeInto, hp]]
      rw [mergeInto_some, lookupHost_cons_pos rest hp, itemsNamed_cons_pos rest hp]
      rfl
    · rw [show mergeInto n none (h :: rest) = mergeInto n none rest by
            simp [mergeInto, hp]]
      rw [ih, itemsNamed_cons_neg rest hp, lookupHost_cons_neg rest hp]

/-! ## Relating the document loop to the flattened host stream -/

theorem foldl_step_basePolicy (hs : List ReportHost) (st : MergeState) :
    (hs.foldl step st).basePolicy = st.basePolicy := by
  induction hs generalizing st with
  | nil => rfl
  | cons h rest ih => rw [List.foldl_cons, ih, step_basePolicy]

theorem step_setPolicy (st : MergeState) (p : Policy) (h : ReportHost) :
    step { st with basePolicy := p } h = { step st h with basePolicy := p } := by
  unfold step; dsimp only; split <;> rfl

theorem foldl_step_setPolicy (hs : List ReportHost) (st : MergeState) (p : Policy) :
    hs.foldl step { st with basePolicy := p }
      = { hs.foldl step st with basePolicy := p } := by
  induction hs generalizing st with
  | nil => rfl
  | cons h rest ih => rw [List.foldl_cons, step_setPolicy, ih, List.foldl_cons]

theorem processDoc_setPolicy (st : MergeState) (p : Policy) (d : NessusClientData) :
    processDoc { st with basePolicy := p } d = { processDoc st d with basePolicy := p } :=
  foldl_step_setPolicy d.report.reportHosts st p

theorem foldl_processDoc_setPolicy (docs : List NessusClientData) (st : MergeState)
    (p : Policy) :
    docs.foldl processDoc { st with basePolicy := p }
      = { docs.foldl processDoc st with basePolicy := p } := by
  induction docs generalizing st with
  | nil => rfl
  | cons d ds ih => rw [List.foldl_cons, processDoc_setPolicy, ih, List.foldl_cons]

theorem allHosts_cons (d : NessusClientData) (ds : List NessusClientData) :
    allHosts (d :: ds) = d.report.reportHosts ++ allHosts ds := by
  simp [allHosts]

theorem foldl_processDoc_flatten (docs : List NessusClientData) (st : MergeState) :
    docs.foldl processDoc st = (allHosts docs).foldl step st := by
  induction docs generalizing st with
  | nil => rfl
  | cons d ds ih =>
    rw [List.foldl_cons, ih, allHosts_cons, List.foldl_append]
    rfl

theorem mergeLoop_of_ne_zero (docs : List NessusClientData) (st : MergeState) (i : Nat)
    (hi : ¬ i = 0) : mergeLoop st i docs = docs.foldl processDoc st := by
  induction docs generalizing st i with
  | nil => rfl
  | cons d ds ih =>
    rw [show mergeLoop st i (d :: ds)
        = mergeLoop (processDoc (if i = 0 then { st with basePolicy := d.policy } else st) d)
            (i + 1) ds from rfl]
    rw [if_neg hi, ih _ _ (Nat.succ_ne_zero i), List.foldl_cons]

theorem mergeDocs_cons (d : NessusClientData) (ds : List NessusClientData) :
    mergeDocs (d :: ds)
      = { (allHosts (d :: ds)).foldl step initState with basePolicy := d.policy } := by
  show mergeLoop initState 0 (d :: ds) = _
  rw [show mergeLoop initState 0 (d :: ds)
      = mergeLoop (processDoc { initState with basePolicy := d.policy } d) 1 ds by
        simp [mergeLoop]]
  rw [mergeLoop_of_ne_zero ds _ 1 one_ne_zero, processDoc_setPolicy,
    foldl_processDoc_setPolicy]
  rw [show ds.foldl processDoc (processDoc initState d)
      = (d :: ds).foldl processDoc initState from rfl]
  rw [foldl_processDoc_flatten]

theorem mergeDocs_hostMap (docs : List NessusClientData) :
    (mergeDocs docs).hostMap = ((allHosts docs).foldl step initState).hostMap := by
  cases docs with
  | nil => rfl
  | cons d ds => rw [mergeDocs_cons]

theorem mergeDocs_processedHosts (docs : List NessusClientData) :
    (mergeDocs docs).processedHosts
      = ((allHosts docs).foldl step initState).processedHosts := by
  cases docs with
  | nil => rfl
  | cons d ds => rw [mergeDocs_cons]

theorem mergeDocs_uniqueHosts (docs : List NessusClientData) :
    (mergeDocs docs).uniqueHosts = ((allHosts docs).foldl step initState).uniqueHosts := by
  cases docs with
  | nil => rfl
  | cons d ds => rw [mergeDocs_cons]

theorem mergeDocs_mergedHosts (docs : List NessusClientData) :
    (mergeDocs docs).mergedHosts = ((allHosts docs).foldl step initState).mergedHosts := by
  cases docs with
  | nil => rfl
  | cons d ds => rw [mergeDocs_cons]

theorem mergeDocs_totalFindings (docs : List NessusClientData) :
    (mergeDocs docs).totalFindings
      = ((allHosts docs).foldl step initState).totalFindings := by
  cases docs with
  | nil => rfl
  | cons d ds => rw [mergeDocs_cons]

/-- Master per-name characterization of the merged host map: looking up any
name in the output yields the first input occurrence of that name carrying
the concatenation of the findings of all its occurrences, and nothing when
the name never occurs. -/
theorem lookupHost_mergeDocs (docs : List NessusClientData) (n : String) :
    lookupHost (mergeDocs docs).hostMap n
      = (lookupHost (allHosts docs) n).map
          (fun h0 => { h0 with reportItems := itemsNamed (allHosts docs) n }) := by
  rw [mergeDocs_hostMap, lookupHost_foldl_step]
  rw [show lookupHost initState.hostMap n = none from rfl]
  rw [mergeInto_none]

/-! ## Counter bookkeeping over the fold -/

theorem foldl_step_processedHosts (hs : List ReportHost) (st : MergeState) :
    (hs.foldl step st).processedHosts = st.processedHosts + hs.length := by
  induction hs generalizing st with
  | nil => simp
  | cons h rest ih =>
    rw [List.foldl_cons, ih, step_processedHosts]
    simp
    omega

theorem totalItems_cons (h : ReportHost) (hs : List ReportHost) :
    totalItems (h :: hs) = h.reportItems.length + totalItems hs := by
  simp [totalItems]

theorem totalItems_append (a b : List ReportHost) :
    totalItems (a ++ b) = totalItems a + totalItems b := by
  simp [totalItems]

theorem foldl_step_totalFindings (hs : List ReportHost) (st : MergeState) :
    (hs.foldl step st).totalFindings = st.totalFindings + totalItems hs := by
  induction hs generalizing st with
  | nil => simp [totalItems]
  | cons h rest ih =>
    rw [List.foldl_cons, ih, step_totalFindings, totalItems_cons]
    omega

theorem foldl_step_unique_merged (hs : List ReportHost) (st : MergeState) :
    (hs.foldl step st).uniqueHosts + (hs.foldl step st).mergedHosts
      = st.uniqueHosts + st.mergedHosts + hs.length := by
  induction hs generalizing st with
  | nil => simp
  | cons h rest ih =>
    have h1 := step_unique_add_merged st h
    have h2 := ih (step st h)
    rw [List.foldl_cons]
    simp only [List.length_cons]
    omega

theorem foldl_step_unique_shift (hs : List ReportHost) (st : MergeState) :
    (hs.foldl step st).uniqueHosts + st.hostMap.length
      = st.uniqueHosts + (hs.foldl step st).hostMap.length := by
  induction hs generalizing st with
  | nil => rfl
  | cons h rest ih =>
    have h1 := step_unique_shift st h
    have h2 := ih (step st h)
    rw [List.foldl_cons]
    omega

theorem totalItems_appendToExisting (hm : List ReportHost) (host : ReportHost)
    (hp : hm.any (fun x => x.name = host.name) = true) :
    totalItems (appendToExisting hm host) = totalItems hm + host.reportItems.length := by
  induction hm with
  | nil => simp at hp
  | cons h rest ih =>
    by_cases hc : h.name = host.name
    · rw [show appendToExisting (h :: rest) host
          = { h with reportItems := h.reportItems ++ host.reportItems } :: rest by
            simp [appendToExisting, hc]]
      rw [totalItems_cons, totalItems_cons]
      simp
      omega
    · rw [show appendToExisting (h :: rest) host = h :: appendToExisting rest host by
            simp [appendToExisting, hc]]
      have hp' : rest.any (fun x => x.name = host.name) = true := by
        simpa [List.any_cons, hc] using hp
      rw [totalItems_cons, totalItems_cons, ih hp']
      omega

theorem step_totalItems (st : MergeState) (h : ReportHost) :
    totalItems (step st h).hostMap = totalItems st.hostMap + h.reportItems.length := by
  by_cases hc : st.hostMap.any (fun x => x.name = h.name) = true
  · rw [step_hostMap_pos st h hc, totalItems_appendToExisting _ _ hc]
  · rw [step_hostMap_neg st h hc, totalItems_append]
    simp [totalItems]

theorem foldl_step_totalItems (hs : List ReportHost) (st : MergeState) :
    totalItems (hs.foldl step st).hostMap = totalItems st.hostMap + totalItems hs := by
  induction hs generalizing st with
  | nil => simp [totalItems]
  | cons h rest ih =>
    have h1 := step_totalItems st h
    have h2 := ih (step st h)
    rw [List.foldl_cons, totalItems_cons]
    omega

/-! ## Names of the accumulated map -/

theorem step_map_name_pos (st : MergeState) (h : ReportHost)
    (hc : st.hostMap.any (fun x => x.name = h.name) = true) :
    (step st h).hostMap.map ReportHost.name = st.hostMap.map ReportHost.name := by
  rw [step_hostMap_pos st h hc, appendToExisting_map_name]

theorem step_map_name_neg (st : MergeState) (h : ReportHost)
    (hc : ¬ st.hostMap.any (fun x => x.name = h.name) = true) :
    (step st h).hostMap.map ReportHost.name
      = st.hostMap.map ReportHost.name ++ [h.name] := by
  rw [step_hostMap_neg st h hc]
  simp

theorem step_names_nodup (st : MergeState) (h : ReportHost)
    (hnd : (st.hostMap.map ReportHost.name).Nodup) :
    ((step st h).hostMap.map ReportHost.name).Nodup := by
  by_cases hc : st.hostMap.any (fun x => x.name = h.name) = true
  · rw [step_map_name_pos st h hc]
    exact hnd
  · rw [step_map_name_neg st h hc]
    have hmem : h.name ∉ st.hostMap.map ReportHost.name := by
      intro hm
      apply hc
      obtain ⟨x, hx, hxe⟩ := List.mem_map.mp hm
      exact List.any_eq_true.mpr ⟨x, hx, by simp [hxe]⟩
    simp [List.nodup_append, hnd, hmem]

theorem foldl_step_names_nodup (hs : List ReportHost) (st : MergeState)
    (hnd : (st.hostMap.map ReportHost.name).Nodup) :
    ((hs.foldl step st).hostMap.map ReportHost.name).Nodup := by
  induction hs generalizing st with
  | nil => exact hnd
  | cons h rest ih =>
    rw [List.foldl_cons]
    exact ih (step st h) (step_names_nodup st h hnd)

theorem mergeDocs_names_nodup (docs : List NessusClientData) :
    ((mergeDocs docs).hostMap.map ReportHost.name).Nodup := by
  rw [mergeDocs_hostMap]
  exact foldl_step_names_nodup _ _ (by simp [initState])

theorem step_names_toFinset (st : MergeState) (h : ReportHost) :
    ((step st h).hostMap.map ReportHost.name).toFinset
      = insert h.name (st.hostMap.map ReportHost.name).toFinset := by
  by_cases hc : st.hostMap.any (fun x => x.name = h.name) = true
  · rw [step_map_name_pos st h hc]
    have hmem : h.name ∈ (st.hostMap.map ReportHost.name).toFinset := by
      obtain ⟨x, hx, hxe⟩ := List.any_eq_true.mp hc
      exact List.mem_toFinset.mpr (List.mem_map.mpr ⟨x, hx, by simpa using hxe⟩)
    exact (Finset.insert_eq_self.mpr hmem).symm
  · rw [step_map_name_neg st h hc]
    simp [Finset.union_comm, Finset.insert_eq]

theorem foldl_step_names_toFinset (hs : List ReportHost) (st : MergeState) :
    ((hs.foldl step st).hostMap.map ReportHost.name).toFinset
      = (st.hostMap.map ReportHost.name).toFinset ∪ (hs.map ReportHost.name).toFinset := by
  induction hs generalizing st with
  | nil => simp
  | cons h rest ih =>
    rw [List.foldl_cons, ih, step_names_toFinset, List.map_cons, List.toFinset_cons,
      Finset.insert_union, Finset.union_insert]

/-! ## Per-name selections of the final map -/

theorem hostsNamed_eq_nil (hs : List ReportHost) (n : String)
    (h : ∀ x ∈ hs, ¬ x.name = n) : hostsNamed hs n = [] := by
  simp only [hostsNamed]
  rw [List.filter_eq_nil_iff]
  intro a ha
  simpa using h a ha

theorem hostsNamed_of_nodup (hs : List ReportHost) (n : String)
    (hnd : (hs.map ReportHost.name).Nodup) :
    hostsNamed hs n = (lookupHost hs n).toList := by
  induction hs with
  | nil => rfl
  | cons h rest ih =>
    rw [List.map_cons, List.nodup_cons] at hnd
    obtain ⟨hmem, hnd'⟩ := hnd
    by_cases hp : h.name = n
    · rw [hostsNamed_cons_pos rest hp, lookupHost_cons_pos rest hp]
      have hnil : hostsNamed rest n = [] := by
        apply hostsNamed_eq_nil
        intro x hx hxe
        exact hmem (List.mem_map.mpr ⟨x, hx, hxe.trans hp.symm⟩)
      rw [hnil]
      rfl
    · rw [hostsNamed_cons_neg rest hp, lookupHost_cons_neg rest hp]
      exact ih hnd'

theorem itemsNamed_eq_nil_of_lookup_none (hs : List ReportHost) (n : String)
    (h : lookupHost hs n = none) : itemsNamed hs n = [] := by
  have hfa := List.find?_eq_none.mp h
  simp only [itemsNamed]
  rw [hostsNamed_eq_nil hs n (fun x hx => by simpa using hfa x hx)]
  rfl

theorem itemsNamed_append (a b : List ReportHost) (n : String) :
    itemsNamed (a ++ b) n = itemsNamed a n ++ itemsNamed b n := by
  simp [itemsNamed, hostsNamed, List.filter_append]

theorem itemsNamed_allHosts (docs : List NessusClientData) (n : String) :
    itemsNamed (allHosts docs) n
      = (docs.map (fun d => itemsNamed d.report.reportHosts n)).flatten := by
  induction docs with
  | nil => rfl
  | cons d ds ih =>
    rw [allHosts_cons, itemsNamed_append, ih]
    simp

/-! ## Closed forms for the counters of a whole run -/

theorem mergeDocs_uniqueHosts_eq_card (docs : List NessusClientData) :
    (mergeDocs docs).uniqueHosts
      = ((allHosts docs).map ReportHost.name).toFinset.card := by
  rw [mergeDocs_uniqueHosts]
  have h1 := foldl_step_unique_shift (allHosts docs) initState
  have hnd := foldl_step_names_nodup (allHosts docs) initState (by simp [initState])
  have hfs := foldl_step_names_toFinset (allHosts docs) initState
  have h2 : ((allHosts docs).foldl step initState).uniqueHosts
      = ((allHosts docs).foldl step initState).hostMap.length := by
    simpa [initState] using h1
  have hfs' : (((allHosts docs).foldl step initState).hostMap.map ReportHost.name).toFinset
      = ((allHosts docs).map ReportHost.name).toFinset := by
    simpa [initState] using hfs
  rw [h2, ← hfs', List.toFinset_card_of_nodup hnd, List.length_map]

theorem mergeDocs_unique_add_merged (docs : List NessusClientData) :
    (mergeDocs docs).uniqueHosts + (mergeDocs docs).mergedHosts
      = (allHosts docs).length := by
  rw [mergeDocs_uniqueHosts, mergeDocs_mergedHosts]
  have h := foldl_step_unique_merged (allHosts docs) initState
  simpa [initState] using h

theorem mergeDocs_totalFindings_eq (docs : List NessusClientData) :
    (mergeDocs docs).totalFindings = totalItems (allHosts docs) := by
  rw [mergeDocs_totalFindings]
  have h := foldl_step_totalFindings (allHosts docs) initState
  simpa [initState] using h

theorem mergeDocs_hostMap_totalItems (docs : List NessusClientData) :
    totalItems (mergeDocs docs).hostMap = totalItems (allHosts docs) := by
  rw [mergeDocs_hostMap]
  have h := foldl_step_totalItems (allHosts docs) initState
  simpa [initState, totalItems] using h

/-! ## Fail-fast behavior of the fallible loops -/

theorem firstParseFailure_mem (files : List (String × Except String NessusClientData))
    (f e : String) (h : firstParseFailure files = some (f, e)) :
    (f, Except.error e) ∈ files := by
  induction files with
  | nil => simp [firstParseFailure] at h
  | cons p rest ih =>
    obtain ⟨file, res⟩ := p
    cases res with
    | error e' =>
      simp [firstParseFailure] at h
      obtain ⟨rfl, rfl⟩ := h
      exact List.mem_cons_self _ _
    | ok d =>
      have h' : firstParseFailure rest = some (f, e) := h
      exact List.mem_cons_of_mem _ (ih h')

theorem mergeFilesLoop_error (files : List (String × Except String NessusClientData))
    (f e : String) (h : firstParseFailure files = some (f, e)) :
    ∀ (st : MergeState) (i : Nat),
      mergeFilesLoop st i files = .error (parseErrorMsg f e) := by
  induction files with
  | nil => simp [firstParseFailure] at h
  | cons p rest ih =>
    obtain ⟨file, res⟩ := p
    cases res with
    | error e' =>
      simp [firstParseFailure] at h
      obtain ⟨rfl, rfl⟩ := h
      intro st i
      rfl
    | ok d =>
      have h' : firstParseFailure rest = some (f, e) := h
      intro st i
      exact ih h' _ _

theorem countTotalHostsLoop_error (files : List (String × Except String NessusClientData))
    (f e : String) (h : firstParseFailure files = some (f, e)) :
    ∀ acc : Nat, countTotalHostsLoop acc files = .error (parseErrorMsg f e) := by
  induction files with
  | nil => simp [firstParseFailure] at h
  | cons p rest ih =>
    obtain ⟨file, res⟩ := p
    cases res with
    | error e' =>
      simp [firstParseFailure] at h
      obtain ⟨rfl, rfl⟩ := h
      intro acc
      rfl
    | ok d =>
      have h' : firstParseFailure rest = some (f, e) := h
      intro acc
      exact ih h' _

theorem mergeNessusFiles_ok (files : List (String × Except String NessusClientData))
    (st : MergeState) (out : String)
    (h : mergeNessusFiles files = .ok (st, out)) :
    mergeFilesLoop initState 0 files = .ok st ∧
      out = xmlHeader ++ marshalNessus (mergedDocOf st) := by
  unfold mergeNessusFiles at h
  cases hL : mergeFilesLoop initState 0 files with
  | error e =>
    rw [hL] at h
    simp [Except.map] at h
  | ok st' =>
    rw [hL] at h
    simp [Except.map] at h
    obtain ⟨rfl, rfl⟩ := h
    exact ⟨rfl, rfl⟩

/-! ## Substring facts about the serializer -/

theorem Substr_self (s : String) : Substr s s :=
  ⟨"", "", by simp⟩

theorem Substr_appendLeft {s t : String} (u : String) (h : Substr s t) :
    Substr s (u ++ t) := by
  obtain ⟨p, q, hp⟩ := h
  exact ⟨u ++ p, q, by rw [hp]; simp [String.append_assoc]⟩

theorem Substr_appendRight {s t : String} (u : String) (h : Substr s t) :
    Substr s (t ++ u) := by
  obtain ⟨p, q, hp⟩ := h
  exact ⟨p, q ++ u, by rw [hp]; simp [String.append_assoc]⟩

theorem Substr_trans {a b c : String} (h1 : Substr a b) (h2 : Substr b c) :
    Substr a c := by
  obtain ⟨p, q, hp⟩ := h1
  obtain ⟨p', q', hp'⟩ := h2
  exact ⟨p' ++ p, q ++ q', by rw [hp', hp]; simp [String.append_assoc]⟩

theorem Substr_content_marshalItem (it : ReportItem) :
    Substr it.content (marshalItem it) :=
  ⟨"      <ReportItem port=\"" ++ escAttr it.port ++
    "\" svc_name=\"" ++ escAttr it.svcName ++
    "\" protocol=\"" ++ escAttr it.protocol ++
    "\" severity=\"" ++ escAttr it.severity ++
    "\" pluginID=\"" ++ escAttr it.pluginID ++
    "\" pluginName=\"" ++ escAttr it.pluginName ++
    "\" pluginFamily=\"" ++ escAttr it.pluginFamily ++ "\">",
   "</ReportItem>\n",
   by simp [marshalItem, String.append_assoc]⟩

theorem Substr_marshalItem_marshalItems (its : List ReportItem) (it : ReportItem)
    (h : it ∈ its) : Substr (marshalItem it) (marshalItems its) := by
  induction its with
  | nil => simp at h
  | cons x rest ih =>
    rw [show marshalItems (x :: rest) = marshalItem x ++ marshalItems rest from rfl]
    rcases List.mem_cons.mp h with hx | hmem
    · rw [hx]
      exact Substr_appendRight _ (Substr_self _)
    · exact Substr_appendLeft _ (ih hmem)

theorem Substr_props_marshalHost (h : ReportHost) :
    Substr h.hostProperties.content (marshalHost h) :=
  ⟨"    <ReportHost name=\"" ++ escAttr h.name ++ "\">\n" ++ "      <HostProperties>",
   "</HostProperties>\n" ++ marshalItems h.reportItems ++ "    </ReportHost>\n",
   by simp [marshalHost, String.append_assoc]⟩

theorem Substr_marshalItems_marshalHost (h : ReportHost) :
    Substr (marshalItems h.reportItems) (marshalHost h) :=
  ⟨"    <ReportHost name=\"" ++ escAttr h.name ++ "\">\n" ++ "      <HostProperties>" ++
    h.hostProperties.content ++ "</HostProperties>\n",
   "    </ReportHost>\n",
   by simp [marshalHost, String.append_assoc]⟩

theorem Substr_marshalHost_marshalHosts (hs : List ReportHost) (h : ReportHost)
    (hmem : h ∈ hs) : Substr (marshalHost h) (marshalHosts hs) := by
  induction hs with
  | nil => simp at hmem
  | cons x rest ih =>
    rw [show marshalHosts (x :: rest) = marshalHost x ++ marshalHosts rest from rfl]
    rcases List.mem_cons.mp hmem with hx | hm
    · rw [hx]
      exact Substr_appendRight _ (Substr_self _)
    · exact Substr_appendLeft _ (ih hm)

theorem Substr_policy_marshalNessus (d : NessusClientData) :
    Substr d.policy.content (marshalNessus d) :=
  ⟨"<NessusClientData_v2>\n" ++ "  <Policy>",
   "</Policy>\n" ++ "  <Report name=\"" ++ escAttr d.report.name ++ "\">\n" ++
    marshalHosts d.report.reportHosts ++ "  </Report>\n" ++ "</NessusClientData_v2>",
   by simp [marshalNessus, String.append_assoc]⟩

theorem Substr_marshalHosts_marshalNessus (d : NessusClientData) :
    Substr (marshalHosts d.report.reportHosts) (marshalNessus d) :=
  ⟨"<NessusClientData_v2>\n" ++ "  <Policy>" ++ d.policy.content ++ "</Policy>\n" ++
    "  <Report name=\"" ++ escAttr d.report.name ++ "\">\n",
   "  </Report>\n" ++ "</NessusClientData_v2>",
   by simp [marshalNessus, String.append_assoc]⟩

/-! ## Assembled facts used by several claims -/

theorem allHosts_single (d : NessusClientData) :
    allHosts [d] = d.report.reportHosts := by
  simp [allHosts]

/-- Per-name conservation: the findings attached to any name in the output
are exactly the concatenated findings of that name's input occurrences. -/
theorem itemsNamed_mergeDocs (docs : List NessusClientData) (n : String) :
    itemsNamed (mergeDocs docs).hostMap n = itemsNamed (allHosts docs) n := by
  have hnd := mergeDocs_names_nodup docs
  have hchar := lookupHost_mergeDocs docs n
  cases hL : lookupHost (allHosts docs) n with
  | none =>
    rw [itemsNamed_eq_nil_of_lookup_none _ _ hL]
    simp only [itemsNamed]
    rw [hostsNamed_of_nodup _ _ hnd, hchar, hL]
    rfl
  | some h0 =>
    simp only [itemsNamed]
    rw [hostsNamed_of_nodup _ _ hnd, hchar, hL]
    simp [itemsNamed]

/-- Any name occurring in the inputs owns exactly one entry of the output. -/
theorem mergeDocs_hostsNamed_length (docs : List NessusClientData) (n : String)
    (hocc : n ∈ (allHosts docs).map ReportHost.name) :
    (hostsNamed (mergeDocs docs).hostMap n).length = 1 := by
  have hnd := mergeDocs_names_nodup docs
  rw [hostsNamed_of_nodup _ _ hnd, lookupHost_mergeDocs docs n]
  obtain ⟨h0, hh0, hname⟩ := List.mem_map.mp hocc
  have hsome : (lookupHost (allHosts docs) n).isSome = true :=
    List.find?_isSome.mpr ⟨h0, hh0, by simpa using hname⟩
  cases hL : lookupHost (allHosts docs) n with
  | none => rw [hL] at hsome; simp at hsome
  | some e => rfl

theorem toFinset_card_lt_of_count (l : List String) (n : String)
    (h2 : 2 ≤ l.count n) : l.toFinset.card < l.length := by
  rw [List.card_toFinset]
  have hsub := List.dedup_sublist l
  have hle := hsub.length_le
  rcases Nat.lt_or_ge l.dedup.length l.length with hlt | hge
  · exact hlt
  · exfalso
    have heq : l.dedup = l := hsub.eq_of_length (Nat.le_antisymm hle hge)
    have hnd : l.Nodup := heq ▸ List.nodup_dedup l
    have hc := List.nodup_iff_count_le_one.mp hnd n
    omega

theorem foldl_step_hostMap_of_fresh (hs : List ReportHost) (st : MergeState)
    (hnd : (hs.map ReportHost.name).Nodup)
    (hfresh : ∀ x ∈ hs, ¬ x.name ∈ st.hostMap.map ReportHost.name) :
    (hs.foldl step st).hostMap = st.hostMap ++ hs := by
  induction hs generalizing st with
  | nil => simp
  | cons h rest ih =>
    rw [List.foldl_cons]
    have hc : ¬ st.hostMap.any (fun x => x.name = h.name) = true := by
      intro hany
      obtain ⟨x, hx, hxe⟩ := List.any_eq_true.mp hany
      exact hfresh h (List.mem_cons_self _ _) (List.mem_map.mpr ⟨x, hx, by simpa using hxe⟩)
    rw [List.map_cons, List.nodup_cons] at hnd
    obtain ⟨hmem, hnd'⟩ := hnd
    have hfresh' : ∀ x ∈ rest, ¬ x.name ∈ (step st h).hostMap.map ReportHost.name := by
      intro x hx hmm
      rw [step_map_name_neg st h hc] at hmm
      rcases List.mem_append.mp hmm with hL | hR
      · exact hfresh x (List.mem_cons_of_mem _ hx) hL
      · simp at hR
        exact hmem (List.mem_map.mpr ⟨x, hx, hR⟩)
    rw [ih (step st h) hnd' hfresh', step_hostMap_neg st h hc]
    simp

/-! ## The claims -/

/-- C1: conservation of findings.  For every input document sequence, every
name's findings in the merged output are exactly the concatenation of that
name's findings across the inputs (so no finding is dropped, duplicated,
mutated, or moved to another host), and the total finding count of the output
equals the sum of the finding counts of all inputs. -/
theorem merge_conservation (docs : List NessusClientData) :
    (∀ n : String,
      itemsNamed (mergeDocs docs).hostMap n = itemsNamed (allHosts docs) n) ∧
    totalItems (mergeDocs docs).hostMap = totalItems (allHosts docs) :=
  ⟨fun n => itemsNamed_mergeDocs docs n, mergeDocs_hostMap_totalItems docs⟩

/-- C2: host identity merge.  A host name occurring in the inputs owns
exactly one output entry, whose finding list is the concatenation of the
per-file finding lists for that name in processing order, with length the
sum of the per-file finding counts. -/
theorem merge_host_identity (docs : List NessusClientData) (n : String)
    (hocc : n ∈ (allHosts docs).map ReportHost.name) :
    (hostsNamed (mergeDocs docs).hostMap n).length = 1 ∧
    itemsNamed (mergeDocs docs).hostMap n
      = (docs.map (fun d => itemsNamed d.report.reportHosts n)).flatten ∧
    (itemsNamed (mergeDocs docs).hostMap n).length
      = (docs.map (fun d => (itemsNamed d.report.reportHosts n).length)).sum := by
  have hitems : itemsNamed (mergeDocs docs).hostMap n
      = (docs.map (fun d => itemsNamed d.report.reportHosts n)).flatten := by
    rw [itemsNamed_mergeDocs docs n, itemsNamed_allHosts]
  refine ⟨mergeDocs_hostsNamed_length docs n hocc, hitems, ?_⟩
  rw [hitems, List.length_flatten, List.map_map]
  rfl

/-- C2 witness: the spec's worked example, host `10.0.0.1` in files A and B
(3 findings then 2 findings, concatenated in file order). -/
theorem merge_host_identity_witness :
    "10.0.0.1" ∈ (allHosts [docA, docB]).map ReportHost.name ∧
    ((hostsNamed (mergeDocs [docA, docB]).hostMap "10.0.0.1").length = 1 ∧
     itemsNamed (mergeDocs [docA, docB]).hostMap "10.0.0.1"
       = ([docA, docB].map (fun d => itemsNamed d.report.reportHosts "10.0.0.1")).flatten ∧
     (itemsNamed (mergeDocs [docA, docB]).hostMap "10.0.0.1").length
       = ([docA, docB].map
           (fun d => (itemsNamed d.report.reportHosts "10.0.0.1").length)).sum) :=
  ⟨by decide, merge_host_identity [docA, docB] "10.0.0.1" (by decide)⟩

/-- C3 counterexample: with one host name occurring three times, the
merged-hosts counter is 2 (one per merge event) while only one distinct name
was seen more than once, refuting the claim that the counter equals the
number of distinct names seen more than once. -/
theorem merge_counters_cex :
    ¬ ((mergeDocs [tripleDoc]).mergedHosts
        = repeatedNameCount (allHosts [tripleDoc])) := by
  decide

/-- C3 amended: the merged-hosts counter counts merge events, i.e. host
occurrences beyond the first for each name (total occurrences minus distinct
names); the total-findings counter equals the sum of finding counts over all
host occurrences, first appearances included. -/
theorem merge_counters_amended (docs : List NessusClientData) :
    (mergeDocs docs).mergedHosts + ((allHosts docs).map ReportHost.name).toFinset.card
      = (allHosts docs).length ∧
    (mergeDocs docs).totalFindings = totalItems (allHosts docs) := by
  constructor
  · have h1 := mergeDocs_unique_add_merged docs
    have h2 := mergeDocs_uniqueHosts_eq_card docs
    omega
  · exact mergeDocs_totalFindings_eq docs

/-- C4: the Policy of the first document processed becomes, verbatim, the
output Policy, whatever the remaining documents are (so later Policies have
no effect). -/
theorem merge_policy_first (d : NessusClientData) (ds : List NessusClientData) :
    (mergeDocs (d :: ds)).basePolicy = d.policy := by
  rw [mergeDocs_cons]

/-- C5: the output entry for any name carries the name and Properties of the
first input occurrence of that name; later occurrences' Properties are
discarded. -/
theorem merge_props_first (docs : List NessusClientData) (n : String)
    (h0 : ReportHost) (h : lookupHost (allHosts docs) n = some h0) :
    ∃ e, lookupHost (mergeDocs docs).hostMap n = some e ∧
      e.hostProperties = h0.hostProperties ∧ e.name = h0.name := by
  refine ⟨{ h0 with reportItems := itemsNamed (allHosts docs) n }, ?_, rfl, rfl⟩
  rw [lookupHost_mergeDocs, h]
  rfl

/-- C5 witness: host `10.0.0.1` occurs in both example files; the output
entry keeps the first file's Properties. -/
theorem merge_props_first_witness :
    lookupHost (allHosts [docA, docB]) "10.0.0.1"
      = some (exHost "10.0.0.1" ["a1", "a2", "a3"]) ∧
    (∃ e, lookupHost (mergeDocs [docA, docB]).hostMap "10.0.0.1" = some e ∧
      e.hostProperties = (exHost "10.0.0.1" ["a1", "a2", "a3"]).hostProperties ∧
      e.name = (exHost "10.0.0.1" ["a1", "a2", "a3"]).name) :=
  ⟨by decide, merge_props_first [docA, docB] "10.0.0.1" _ (by decide)⟩

/-- C6: if some input file fails to parse, the run fails fast: the first
failing file is among the inputs, both the host-count pre-scan and the merge
return an error naming that file, and no merged output is produced. -/
theorem merge_failfast (files : List (String × Except String NessusClientData))
    (f e : String) (h : firstParseFailure files = some (f, e)) :
    (f, Except.error e) ∈ files ∧
    mergeNessusFiles files = .error (parseErrorMsg f e) ∧
    countTotalHosts files = .error (parseErrorMsg f e) ∧
    ∀ result, ¬ mergeNessusFiles files = .ok result := by
  have hmerge : mergeNessusFiles files = .error (parseErrorMsg f e) := by
    unfold mergeNessusFiles
    rw [mergeFilesLoop_error files f e h initState 0]
    rfl
  refine ⟨firstParseFailure_mem files f e h, hmerge,
    countTotalHostsLoop_error files f e h 0, ?_⟩
  intro result hok
  rw [hmerge] at hok
  cases hok

/-- C6 witness: a well-formed first file followed by an unparsable second
file aborts the whole run, reporting the second file's name. -/
theorem merge_failfast_witness :
    firstParseFailure [("fileA", .ok docA), ("fileB", .error "bad XML")]
      = some ("fileB", "bad XML") ∧
    (("fileB", Except.error "bad XML")
        ∈ [("fileA", Except.ok docA), ("fileB", Except.error "bad XML")] ∧
     mergeNessusFiles [("fileA", .ok docA), ("fileB", .error "bad XML")]
       = .error (parseErrorMsg "fileB" "bad XML") ∧
     countTotalHosts [("fileA", .ok docA), ("fileB", .error "bad XML")]
       = .error (parseErrorMsg "fileB" "bad XML") ∧
     ∀ result, ¬ mergeNessusFiles [("fileA", .ok docA), ("fileB", .error "bad XML")]
       = .ok result) :=
  ⟨rfl, merge_failfast [("fileA", .ok docA), ("fileB", .error "bad XML")]
    "fileB" "bad XML" rfl⟩

/-- C7 counterexample: a single input document holding the same host name
twice is not reproduced unchanged — the merge folds the two entries into one,
so the output host count (1) differs from the input host count (2). -/
theorem merge_single_cex :
    ¬ ((mergeDocs [dupDoc]).hostMap.length = dupDoc.report.reportHosts.length) := by
  decide

/-- C7 amended: merging a single file whose host names are distinct
reproduces its hosts and findings with no change in host count or finding
count (in general only the finding count is preserved: duplicate names
within one file are folded, see C10). -/
theorem merge_single_idempotent (d : NessusClientData)
    (hnd : (d.report.reportHosts.map ReportHost.name).Nodup) :
    (mergeDocs [d]).hostMap = d.report.reportHosts ∧
    (mergeDocs [d]).hostMap.length = d.report.reportHosts.length ∧
    totalItems (mergeDocs [d]).hostMap = totalItems d.report.reportHosts := by
  have hmap : (mergeDocs [d]).hostMap = d.report.reportHosts := by
    rw [mergeDocs_hostMap, allHosts_single]
    rw [foldl_step_hostMap_of_fresh _ _ hnd (by simp [initState])]
    rfl
  exact ⟨hmap, by rw [hmap], by rw [hmap]⟩

/-- C7 witness: file A alone (distinct host names) is reproduced exactly. -/
theorem merge_single_idempotent_witness :
    (docA.report.reportHosts.map ReportHost.name).Nodup ∧
    ((mergeDocs [docA]).hostMap = docA.report.reportHosts ∧
     (mergeDocs [docA]).hostMap.length = docA.report.reportHosts.length ∧
     totalItems (mergeDocs [docA]).hostMap = totalItems docA.report.reportHosts) :=
  ⟨by decide, merge_single_idempotent docA (by decide)⟩

/-- C8: the unique-host counter equals the number of distinct host names
across all inputs, and unique + merged is bounded by the total number of
host occurrences (in fact the two sides are equal). -/
theorem merge_count_bounds (docs : List NessusClientData) :
    (mergeDocs docs).uniqueHosts
      = ((allHosts docs).map ReportHost.name).toFinset.card ∧
    (mergeDocs docs).uniqueHosts + (mergeDocs docs).mergedHosts
      ≤ (allHosts docs).length :=
  ⟨mergeDocs_uniqueHosts_eq_card docs, le_of_eq (mergeDocs_unique_add_merged docs)⟩

/-- C9: on success the serialized output is the XML declaration header
followed by the marshaled merged document, the report name is the synthetic
"Merged Nessus Report", and the opaque content blocks (Policy content,
each host's HostProperties content, each finding body) appear verbatim in
the output bytes. -/
theorem merge_serialization (files : List (String × Except String NessusClientData))
    (st : MergeState) (out : String)
    (h : mergeNessusFiles files = .ok (st, out)) :
    out = xmlHeader ++ marshalNessus (mergedDocOf st) ∧
    (mergedDocOf st).report.name = "Merged Nessus Report" ∧
    Substr st.basePolicy.content out ∧
    ∀ h0 ∈ st.hostMap, Substr h0.hostProperties.content out ∧
      ∀ it ∈ h0.reportItems, Substr it.content out := by
  obtain ⟨hL, hout⟩ := mergeNessusFiles_ok files st out h
  subst hout
  refine ⟨rfl, rfl, ?_, ?_⟩
  · exact Substr_appendLeft _ (Substr_policy_marshalNessus (mergedDocOf st))
  · intro h0 hmem
    have hhost : Substr (marshalHost h0) (marshalNessus (mergedDocOf st)) :=
      Substr_trans (Substr_marshalHost_marshalHosts _ h0 hmem)
        (Substr_marshalHosts_marshalNessus (mergedDocOf st))
    constructor
    · exact Substr_appendLeft _ (Substr_trans (Substr_props_marshalHost h0) hhost)
    · intro it hit
      exact Substr_appendLeft _ (Substr_trans
        (Substr_trans (Substr_content_marshalItem it)
          (Substr_trans (Substr_marshalItem_marshalItems _ it hit)
            (Substr_marshalItems_marshalHost h0))) hhost)

/-- C9 witness: merging file A alone succeeds and the serialization facts
hold for its output. -/
theorem merge_serialization_witness :
    mergeNessusFiles [("fileA", .ok docA)]
      = .ok (mergeDocs [docA],
          xmlHeader ++ marshalNessus (mergedDocOf (mergeDocs [docA]))) ∧
    (xmlHeader ++ marshalNessus (mergedDocOf (mergeDocs [docA]))
        = xmlHeader ++ marshalNessus (mergedDocOf (mergeDocs [docA])) ∧
     (mergedDocOf (mergeDocs [docA])).report.name = "Merged Nessus Report" ∧
     Substr (mergeDocs [docA]).basePolicy.content
       (xmlHeader ++ marshalNessus (mergedDocOf (mergeDocs [docA]))) ∧
     ∀ h0 ∈ (mergeDocs [docA]).hostMap,
       Substr h0.hostProperties.content
         (xmlHeader ++ marshalNessus (mergedDocOf (mergeDocs [docA]))) ∧
       ∀ it ∈ h0.reportItems,
         Substr it.content
           (xmlHeader ++ marshalNessus (mergedDocOf (mergeDocs [docA])))) :=
  ⟨rfl, merge_serialization [("fileA", .ok docA)] (mergeDocs [docA]) _ rfl⟩

/-- C10: host-name keying is global, not per file: duplicate names inside a
single document are folded into one output host holding the concatenation of
their findings in document order, and the repeated occurrence is counted as
a merge event. -/
theorem merge_same_file_fold (d : NessusClientData) (n : String)
    (h2 : 2 ≤ (d.report.reportHosts.map ReportHost.name).count n) :
    (hostsNamed (mergeDocs [d]).hostMap n).length = 1 ∧
    itemsNamed (mergeDocs [d]).hostMap n = itemsNamed d.report.reportHosts n ∧
    1 ≤ (mergeDocs [d]).mergedHosts := by
  have hocc : n ∈ (allHosts [d]).map ReportHost.name := by
    rw [allHosts_single]
    exact List.count_pos_iff.mp (by omega)
  refine ⟨mergeDocs_hostsNamed_length [d] n hocc, ?_, ?_⟩
  · rw [itemsNamed_mergeDocs [d] n, allHosts_single]
  · have h1 := mergeDocs_unique_add_merged [d]
    have h2' := mergeDocs_uniqueHosts_eq_card [d]
    have h3 : ((allHosts [d]).map ReportHost.name).toFinset.card
        < ((allHosts [d]).map ReportHost.name).length := by
      apply toFinset_card_lt_of_count _ n
      rw [allHosts_single]
      exact h2
    rw [List.length_map] at h3
    omega

/-- C10 witness: one document holding host `a` twice yields a single output
host `a` and one merge event. -/
theorem merge_same_file_fold_witness :
    2 ≤ (dupDoc.report.reportHosts.map ReportHost.name).count "a" ∧
    ((hostsNamed (mergeDocs [dupDoc]).hostMap "a").length = 1 ∧
     itemsNamed (mergeDocs [dupDoc]).hostMap "a"
       = itemsNamed dupDoc.report.reportHosts "a" ∧
     1 ≤ (mergeDocs [dupDoc]).mergedHosts) :=
  ⟨by decide, merge_same_file_fold dupDoc "a" (by decide)⟩

end Nessusmerger
